import Mathlib

/-!
# Verification of the re:memo frontend against its specification

Shallow embedding of the JavaScript sources of the re:memo journaling
application (frontend utilities, API client, chat/reflection pages) together
with proofs of the specification's claims about them.

Strings are modelled as `List Char`; JavaScript numbers appearing as
timestamps/durations are modelled as `Int`; similarity scores as `Rat`.
Regex-based scanning functions are modelled with an explicit fuel parameter
(always instantiated with the input length, which suffices) so that every
definition is executable and evaluates by `decide`/`rfl`.
-/

namespace ReMemo

/-! ## JavaScript character-class primitives

`isWsJS` is the character set matched by the JavaScript regex class `\s`
(and stripped by `String.prototype.trim`); `isPunctC` is the class `[.!?]`
used by the sentence fragmenter. -/

/-- The JavaScript `\\s` / `trim` whitespace set (ASCII part plus the Unicode
space separators used by the ECMAScript standard), by code point. -/
def isWsJS (c : Char) : Bool :=
  let n := c.toNat
  n = 0x09 || n = 0x0a || n = 0x0b || n = 0x0c || n = 0x0d || n = 0x20 ||
  n = 0xa0 || n = 0x1680 || (0x2000 ≤ n && n ≤ 0x200a) ||
  n = 0x2028 || n = 0x2029 || n = 0x202f || n = 0x205f || n = 0x3000 ||
  n = 0xfeff

/-- The sentence-boundary punctuation class `[.!?]` of the fragmenter. -/
def isPunctC (c : Char) : Bool :=
  c = '.' || c = '!' || c = '?'

/-- JavaScript `String.prototype.trim` on a character list: drop whitespace
from the front, then from the back. -/
def jsTrim (l : List Char) : List Char :=
  ((l.dropWhile isWsJS).reverse.dropWhile isWsJS).reverse

/-! ## `src/frontend/src/utils/security.js` -/

/-- `validateJournalEntry`'s input: a JS object whose `title` and `content`
fields may be absent/null (`none`) or strings. -/
structure EntryData where
  title : Option (List Char)
  content : Option (List Char)

/-- JS truthiness of an optional string field: `!x` is true for a missing
field and for the empty string. -/
def truthyStr : Option (List Char) → Bool
  | none => false
  | some s => !s.isEmpty

/-- Length of an optional string field, `0` when absent (the length checks in
the source are guarded by truthiness, so the default never matters). -/
def optLen : Option (List Char) → Nat
  | none => 0
  | some s => s.length

/-- Trimmed length of an optional string field. -/
def optTrimLen : Option (List Char) → Nat
  | none => 0
  | some s => (jsTrim s).length

/-- `validateJournalEntry` (security.js, lines 23-46): accumulates an error
message per violated rule and reports validity as "no errors". -/
def validateJournalEntry (entry : EntryData) : Bool × List (List Char) :=
  let errors :=
    (if !truthyStr entry.title || optTrimLen entry.title = 0 then
      [("Title is required").toList] else []) ++
    (if truthyStr entry.title && decide (optLen entry.title > 200) then
      [("Title must be less than 200 characters").toList] else []) ++
    (if !truthyStr entry.content || optTrimLen entry.content = 0 then
      [("Content is required").toList] else []) ++
    (if truthyStr entry.content && decide (optLen entry.content > 50000) then
      [("Content must be less than 50,000 characters").toList] else [])
  (errors.isEmpty, errors)

/-- A JavaScript value passed to `validateSearchQuery`: either a string or
some non-string value (null, undefined, a number, ...). -/
inductive JSValue where
  | str (s : List Char)
  | nonstr
deriving DecidableEq

/-- The characters removed by `validateSearchQuery`'s sanitizing regex
`/[<>\"'&]/g`. -/
def isDangerC (c : Char) : Bool :=
  c = '<' || c = '>' || c = '"' || c = '\'' || c = '&'

/-- `validateSearchQuery` (security.js, lines 53-65): non-strings and falsy
values short-circuit; otherwise the query is sanitized (dangerous characters
removed, then trimmed) and validity is `0 < length ≤ 100`. -/
def validateSearchQuery (query : JSValue) : Bool × List Char :=
  match query with
  | JSValue.nonstr => (false, [])
  | JSValue.str s =>
    if s.isEmpty then (false, [])
    else
      let sanitized := jsTrim (s.filter (fun c => !isDangerC c))
      (decide (sanitized.length > 0) && decide (sanitized.length ≤ 100), sanitized)

/-- `RateLimiter` (security.js, lines 70-100): a maximum call count, a window
in milliseconds, and the recorded timestamps of accepted calls. -/
structure RateLimiter where
  maxCalls : Nat
  windowMs : Int
  calls : List Int
deriving DecidableEq, Repr

/-- `RateLimiter.canMakeCall` at clock value `now`: drop recorded calls that
have left the window, then accept (recording `now`) iff fewer than `maxCalls`
remain. -/
def canMakeCall (now : Int) (rl : RateLimiter) : Bool × RateLimiter :=
  let kept := rl.calls.filter (fun t => now - t < rl.windowMs)
  if kept.length < rl.maxCalls then
    (true, { rl with calls := kept ++ [now] })
  else
    (false, { rl with calls := kept })

/-- `RateLimiter.getTimeUntilReset` at clock value `now`. -/
def getTimeUntilReset (now : Int) (rl : RateLimiter) : Int :=
  match rl.calls with
  | [] => 0
  | c :: cs => max 0 ((cs.foldl min c) + rl.windowMs - now)

/-- Run a sequence of `canMakeCall` invocations at the given clock values,
returning the per-call results (time, accepted?) and the final state. -/
def runCalls (rl : RateLimiter) : List Int → List (Int × Bool) × RateLimiter
  | [] => ([], rl)
  | t :: ts =>
    let (ok, rl') := canMakeCall t rl
    let (res, rlF) := runCalls rl' ts
    ((t, ok) :: res, rlF)

/-- The clock values of the invocations that returned `true`. -/
def successTimes (rl : RateLimiter) (ts : List Int) : List Int :=
  ((runCalls rl ts).1.filter (fun p => p.2)).map (fun p => p.1)

/-- Membership of a clock value in the half-open window `[T, T + W)`. -/
def inWindow (T W s : Int) : Bool :=
  decide (T ≤ s) && decide (s < T + W)

/-! ## `src/frontend/src/services/api.js`

The `api.ai` object literal is embedded as the ordered list of its
`(key, operation)` pairs exactly as written in the source, lines 136-236.
The literal binds the key `reviewEntry` twice (lines 150-155 with a
per-request `{ timeout: 60000 }`, lines 180-185 without); JavaScript object
literal semantics keep the value of the **last** duplicate binding. -/

/-- One operation of the `api.ai` client: HTTP method, backend path, and the
per-request timeout override passed to axios, if any. -/
structure ApiOp where
  method : List Char
  path : List Char
  timeout : Option Nat
deriving DecidableEq, Repr

/-- The `api.ai` object literal, in source order. -/
def aiOperations : List (List Char × ApiOp) :=
  [(("processEntry").toList, ⟨("POST").toList, ("/ai/process-entry").toList, none⟩),
   (("reviewEntry").toList, ⟨("POST").toList, ("/ai/review-entry").toList, some 60000⟩),
   (("getTopics").toList, ⟨("GET").toList, ("/ai/topics").toList, none⟩),
   (("getSuggestion").toList, ⟨("POST").toList, ("/ai/suggest-prompt").toList, none⟩),
   (("reviewEntry").toList, ⟨("POST").toList, ("/ai/review-entry").toList, none⟩),
   (("searchSimilar").toList, ⟨("POST").toList, ("/ai/search-similar").toList, none⟩),
   (("getTopicClusters").toList, ⟨("GET").toList, ("/ai/topic-clusters").toList, none⟩),
   (("suggestTopics").toList, ⟨("GET").toList, ("/ai/suggest-topics").toList, none⟩),
   (("analyzePatterns").toList, ⟨("GET").toList, ("/ai/analyze-patterns").toList, none⟩),
   (("healthCheck").toList, ⟨("GET").toList, ("/ai/health").toList, none⟩)]

/-- Property lookup on a JS object literal: the last binding of a duplicated
key wins. -/
def jsObjectGet (entries : List (List Char × ApiOp)) (key : List Char) :
    Option ApiOp :=
  (entries.reverse.find? (fun p => p.1 == key)).map (fun p => p.2)

/-- The request built by `api.ai.searchSimilar` (api.js, lines 190-197):
POST path and JSON body, with source default arguments
`limit = 10`, `similarityThreshold = 0.7`. -/
structure SearchSimilarBody where
  query : List Char
  limit : Nat
  similarity_threshold : Rat
deriving DecidableEq, Repr

/-- `api.ai.searchSimilar` as the request it issues. -/
def searchSimilar (query : List Char) (limit : Nat := 10)
    (similarityThreshold : Rat := 7/10) : List Char × SearchSimilarBody :=
  (("/ai/search-similar").toList, ⟨query, limit, similarityThreshold⟩)

/-! ## `src/frontend/src/pages/ChatPage.jsx` - the reflection fetch

`throttledFetch` (ChatPage.jsx, lines 75-115) validates the query, checks the
rate limiter, clears the previous reflection/cards, performs the POST to
`/ai/get-reflection`, and on a non-ok response throws
`Request failed: ${resp.status}`.  The async wrapper `useAsyncOperation`
(imported from `@/hooks/useCommon`) is not part of the supplied sources, so
its error bookkeeping is modelled from the spec. -/

/-- A note card returned by the reflection endpoint. -/
structure Note where
  id : Nat
  title : List Char
  date : Int
  content : List Char
deriving DecidableEq, Repr

/-- The observable outcome of the `/ai/get-reflection` fetch: an ok JSON
response (whose `reflection` and `notes` fields may each be absent) or a
non-ok HTTP status. -/
inductive FetchOutcome where
  | ok (reflection : Option (List Char)) (notes : Option (List Note))
  | httpError (status : Nat)
deriving DecidableEq

/-- The ChatPage state touched by `throttledFetch`. -/
structure ChatPageState where
  reflection : List Char
  cards : List Note
  error : Option (List Char)
deriving DecidableEq, Repr

/-- Modelled from the spec: the `error` state kept by `useAsyncOperation`
(`@/hooks/useCommon`, not included in the supplied sources).  Spec section 7:
"retrieval/chat failures should never silently return an empty-looking
success; the caller must be able to distinguish 'no relevant history found'
(valid, zero-result success) from 'retrieval failed' (error)" — so `execute`
clears the stored error before running the operation and records the thrown
error when the operation fails.  The body of the operation itself
(clearing results, the fetch, the `!resp.ok` throw, and the state updates)
is taken directly from `throttledFetch` in ChatPage.jsx. -/
def throttledFetch (st : ChatPageState) (outcome : FetchOutcome) :
    ChatPageState :=
  let cleared := { st with reflection := ([] : List Char),
                           cards := ([] : List Note),
                           error := (none : Option (List Char)) }
  match outcome with
  | FetchOutcome.ok refl notes =>
      { cleared with reflection := refl.getD [], cards := notes.getD [] }
  | FetchOutcome.httpError status =>
      { cleared with error := some (("Request failed: " ++ toString status).toList) }

/-! ## `useChat.sendMessage` (src/unnamed/part_011, lines 231-264) -/

/-- A chat message role. -/
inductive Role where
  | user
  | assistant
deriving DecidableEq, Repr

/-- A chat message as built by `useChat.sendMessage`. -/
structure ChatMessage where
  role : Role
  content : List Char
  timestamp : Int
  context_facts_used : Option Nat
  relevant_facts : List Nat
deriving DecidableEq, Repr

/-- The response of `api.chat.sendMessage`. -/
structure ChatResponse where
  response : List Char
  context_facts_used : Nat
  relevant_facts : List Nat
deriving DecidableEq, Repr

/-- Outcome of the `api.chat.sendMessage` call: a response, or a thrown
error. -/
inductive ApiResult where
  | ok (r : ChatResponse)
  | error
deriving DecidableEq

/-- `useChat.sendMessage`: append the user message immediately, call the API,
and on success append the assistant message built from the response (on
failure the call throws after the user message was already appended).
Timestamps are the two `new Date().toISOString()` readings. -/
def sendMessage (messages : List ChatMessage) (message : List Char)
    (tUser tAsst : Int) (result : ApiResult) : List ChatMessage :=
  let afterUser := messages ++
    [{ role := Role.user, content := message, timestamp := tUser,
       context_facts_used := none, relevant_facts := [] }]
  match result with
  | ApiResult.ok r => afterUser ++
      [{ role := Role.assistant, content := r.response, timestamp := tAsst,
         context_facts_used := some r.context_facts_used,
         relevant_facts := r.relevant_facts }]
  | ApiResult.error => afterUser

/-! ## The vector store `search` operation (spec section 4.3)

The similarity search itself lives in the backend, which is not part of the
supplied sources — `api.ai.searchSimilar` above is only the client wrapper.
The operation is therefore modelled from the spec. -/

/-- A stored fact with its embedding vector and creation time. -/
structure Fact where
  id : Nat
  created_at : Int
  vec : List Rat
deriving DecidableEq, Repr

/-- The ordering used to rank search results: higher similarity first, ties
broken by more recent `created_at` first. -/
def searchLE (p q : Fact × Rat) : Bool :=
  decide (q.2 < p.2) || (decide (p.2 = q.2) && decide (q.1.created_at ≤ p.1.created_at))

/-- Modelled from the spec: the vector store's
`search(query_vector, k, similarity_threshold)` operation (spec section 4.3,
not present in the supplied sources, which only contain the client wrapper
`api.ai.searchSimilar`): score every stored fact, keep those with similarity
at least the threshold, order by descending similarity with ties broken by
more recent `created_at`, and return at most `k` results.  The similarity
measure (the spec's cosine similarity) is passed in as the scoring function
`sim`; every property claimed is independent of the particular measure. -/
def search (sim : List Rat → List Rat → Rat) (store : List Fact)
    (q : List Rat) (k : Nat) (t : Rat) : List (Fact × Rat) :=
  ((((store.map (fun f => (f, sim q f.vec))).filter
      (fun p => decide (t ≤ p.2))).mergeSort searchLE).take k)

/-! ## The sentence fragmenter (`processedSuggestion`, src/unnamed/part_004, lines 31-50)

JavaScript:
`prompt.split(/([.!?]+\s+)/).reduce(...).map(s => s.trim()).filter(s => s.length > 0)`.
The regex separator is a maximal run of `[.!?]` followed by a maximal run of
whitespace; `split` with a capturing group keeps the separators at the odd
positions; the `reduce` re-attaches each separator to the preceding text part
and keeps a trailing text part only when its trim is truthy. -/

/-- The leftmost match of the split regex `([.!?]+\s+)`:
`some (pre, sep, rest)` where `pre` is the text before the match, `sep` the
matched separator and `rest` the remainder; `none` when there is no match. -/
def findMatch : List Char → Option (List Char × List Char × List Char)
  | [] => none
  | c :: cs =>
    if isPunctC c = true then
      match List.dropWhile isPunctC (c :: cs) with
      | [] => (findMatch cs).map (fun x => (c :: x.1, x.2.1, x.2.2))
      | d :: r2 =>
        if isWsJS d = true then
          some ([], List.takeWhile isPunctC (c :: cs) ++
                      d :: List.takeWhile isWsJS r2,
                List.dropWhile isWsJS r2)
        else (findMatch cs).map (fun x => (c :: x.1, x.2.1, x.2.2))
    else (findMatch cs).map (fun x => (c :: x.1, x.2.1, x.2.2))

/-- `String.prototype.split` with the capturing separator group: the
alternating list of text and separator parts.  Fuel-based so the definition
evaluates by reduction; any fuel at least the input length gives the fixed
point, and the wrapper `splitCapture` passes the input length. -/
def splitCaptureGo : Nat → List Char → List (List Char)
  | 0, cs => [cs]
  | fuel + 1, cs =>
    match findMatch cs with
    | none => [cs]
    | some (pre, sep, rest) => pre :: sep :: splitCaptureGo fuel rest

/-- `prompt.split(/([.!?]+\s+)/)`. -/
def splitCapture (cs : List Char) : List (List Char) :=
  splitCaptureGo cs.length cs

/-- The `reduce` step: each text part at an even index is pushed combined
with the following separator; a final text part without separator is pushed
only when `part.trim()` is truthy (nonempty). -/
def combineParts : List (List Char) → List (List Char)
  | [] => []
  | [p] => if jsTrim p = [] then [] else [p]
  | p :: s :: rest => (p ++ s) :: combineParts rest

/-- The sentence fragmenter `processedSuggestion`: a falsy (empty) prompt
yields `[]`; otherwise split on the separator regex, re-attach separators,
trim every fragment and drop the empty ones. -/
def processedSuggestion (prompt : List Char) : List (List Char) :=
  if prompt.isEmpty then []
  else ((combineParts (splitCapture prompt)).map jsTrim).filter
    (fun s => decide (s.length > 0))

/-- The combine-trim-filter tail of the fragmenter, exposed for reasoning. -/
def fragPost (parts : List (List Char)) : List (List Char) :=
  ((combineParts parts).map jsTrim).filter (fun s => decide (s.length > 0))

/-- No position where a `[.!?]` character is immediately followed by a
whitespace character — i.e. no remaining split boundary.  Every fragment the
fragmenter emits satisfies this (the fragmenter splits at every boundary). -/
def BoundaryFree (l : List Char) : Prop :=
  List.Chain' (fun a b => ¬(isPunctC a = true ∧ isWsJS b = true)) l

/-! ## `markdownToText` (src/unnamed/part_008, lines 71-93)

The function is a fixed pipeline of nine global regex replacements followed
by `trim`:
headers `/^#{1,6}\s+/gm`, emphasis `/(\*{1,2}|_{1,2})(.*?)\1/g` (kept as
`$2`), links `/\[([^\]]+)\]\([^)]+\)/g` (kept as `$1`), code fences
`/```[\s\S]*?```/g`, inline code `/`([^`]+)`/g` (kept as `$1`), blockquotes
`/^>\s+/gm`, list markers `/^[\s]*[-*+]\s+/gm` and `/^[\s]*\d+\.\s+/gm`, and
blank-line collapsing `/\n\s*\n/g` to `"\n\n"`.

Each replacement is embedded as a matcher fed to a generic left-to-right
scanner: the matcher inspects the current position (plus a line-start flag
for the `/m` anchors) and reports a match as
`(replacement, number of characters consumed, line-start flag after the
match)`; on no match the scanner keeps one character and moves on. -/

/-- The ECMAScript line terminators (after which a multiline `^` matches). -/
def isLineTerm (c : Char) : Bool :=
  c = '\n' || c = '\r' || c.toNat = 0x2028 || c.toNat = 0x2029

/-- Whether the last character of a list is a line terminator (the line-start
flag after consuming it). -/
def lastIsLineTerm (l : List Char) : Bool :=
  match l.getLast? with
  | some c => isLineTerm c
  | none => false

/-- Generic scanner for a single `String.replace(regex, ...)` pass.  Fuel
decreases by one per step while at least one character is consumed, so fuel
`= input length` always suffices. -/
def scanGo (m : Bool → List Char → Option (List Char × Nat × Bool)) :
    Nat → Bool → List Char → List Char
  | 0, _, cs => cs
  | _ + 1, _, [] => []
  | fuel + 1, atStart, c :: t =>
    match m atStart (c :: t) with
    | some (emit, n, st) =>
        emit ++ scanGo m fuel st (List.drop (max n 1) (c :: t))
    | none => c :: scanGo m fuel (isLineTerm c) t

/-- Run one replacement pass over the whole string (position 0 is a line
start). -/
def runPass (m : Bool → List Char → Option (List Char × Nat × Bool))
    (cs : List Char) : List Char :=
  scanGo m cs.length true cs

/-- Characters matched by `.` in a JS regex without the `s` flag. -/
def dotOk (c : Char) : Bool :=
  !isLineTerm c

/-- Lazy search for the closing delimiter: the least offset `d` such that
`delim` occurs at offset `d` and every skipped character satisfies `ok`
(`dotOk` for `.`, everything for `[\s\S]`). -/
def findCloseBy (ok : Char → Bool) (delim : List Char) :
    List Char → Option Nat
  | [] => if List.isPrefixOf delim [] then some 0 else none
  | c :: t =>
    if List.isPrefixOf delim (c :: t) then some 0
    else if ok c then (findCloseBy ok delim t).map (· + 1) else none

/-- Pass 1: `/^#{1,6}\s+/gm` removed. -/
def headerMatch (atStart : Bool) (cs : List Char) :
    Option (List Char × Nat × Bool) :=
  if atStart then
    let hs := List.takeWhile (fun c => c = '#') cs
    if 1 ≤ hs.length ∧ hs.length ≤ 6 then
      match List.dropWhile (fun c => c = '#') cs with
      | [] => none
      | d :: r =>
        if isWsJS d then
          let ws := d :: List.takeWhile isWsJS r
          some ([], hs.length + ws.length, lastIsLineTerm ws)
        else none
    else none
  else none

/-- Pass 2: `/(\*{1,2}|_{1,2})(.*?)\1/g` replaced by the captured content.
`{1,2}` is greedy (two delimiter characters preferred), the content is lazy
and cannot cross a line terminator, and when `**`/`__` finds no closing pair
the engine backtracks to a single delimiter, which closes immediately on the
second delimiter character. -/
def emphMatch (_ : Bool) (cs : List Char) :
    Option (List Char × Nat × Bool) :=
  match cs with
  | '*' :: '*' :: t =>
    (match findCloseBy dotOk ['*', '*'] t with
     | some d => some (List.take d t, d + 4, false)
     | none => some ([], 2, false))
  | '*' :: t =>
    (match findCloseBy dotOk ['*'] t with
     | some d => some (List.take d t, d + 2, false)
     | none => none)
  | '_' :: '_' :: t =>
    (match findCloseBy dotOk ['_', '_'] t with
     | some d => some (List.take d t, d + 4, false)
     | none => some ([], 2, false))
  | '_' :: t =>
    (match findCloseBy dotOk ['_'] t with
     | some d => some (List.take d t, d + 2, false)
     | none => none)
  | _ => none

/-- Pass 3: `/\[([^\]]+)\]\([^)]+\)/g` replaced by the link text. -/
def linkMatch (_ : Bool) (cs : List Char) :
    Option (List Char × Nat × Bool) :=
  match cs with
  | '[' :: t =>
    let content := List.takeWhile (fun c => !(c = ']')) t
    if content.isEmpty then none
    else
      match List.dropWhile (fun c => !(c = ']')) t with
      | ']' :: '(' :: r3 =>
        let url := List.takeWhile (fun c => !(c = ')')) r3
        if url.isEmpty then none
        else
          match List.dropWhile (fun c => !(c = ')')) r3 with
          | ')' :: _ =>
              some (content, content.length + url.length + 4, false)
          | _ => none
      | _ => none
  | _ => none

/-- Pass 4: `/```[\s\S]*?```/g` removed. -/
def fenceMatch (_ : Bool) (cs : List Char) :
    Option (List Char × Nat × Bool) :=
  match cs with
  | '`' :: '`' :: '`' :: t =>
    (match findCloseBy (fun _ => true) ['`', '`', '`'] t with
     | some d => some ([], d + 6, false)
     | none => none)
  | _ => none

/-- Pass 5: `/`([^`]+)`/g` replaced by the code text. -/
def codeMatch (_ : Bool) (cs : List Char) :
    Option (List Char × Nat × Bool) :=
  match cs with
  | '`' :: t =>
    let content := List.takeWhile (fun c => !(c = '`')) t
    if content.isEmpty then none
    else
      match List.dropWhile (fun c => !(c = '`')) t with
      | '`' :: _ => some (content, content.length + 2, false)
      | _ => none
  | _ => none

/-- Pass 6: `/^>\s+/gm` removed. -/
def bqMatch (atStart : Bool) (cs : List Char) :
    Option (List Char × Nat × Bool) :=
  if atStart then
    match cs with
    | '>' :: d :: r =>
      if isWsJS d then
        let ws := d :: List.takeWhile isWsJS r
        some ([], 1 + ws.length, lastIsLineTerm ws)
      else none
    | _ => none
  else none

/-- Pass 7: `/^[\s]*[-*+]\s+/gm` removed. -/
def ulMatch (atStart : Bool) (cs : List Char) :
    Option (List Char × Nat × Bool) :=
  if atStart then
    let ws0 := List.takeWhile isWsJS cs
    match List.dropWhile isWsJS cs with
    | m :: d :: r =>
      if (m = '-' || m = '*' || m = '+') && isWsJS d then
        let ws1 := d :: List.takeWhile isWsJS r
        some ([], ws0.length + 1 + ws1.length,
          lastIsLineTerm ws1)
      else none
    | _ => none
  else none

/-- Pass 8: `/^[\s]*\d+\.\s+/gm` removed. -/
def olMatch (atStart : Bool) (cs : List Char) :
    Option (List Char × Nat × Bool) :=
  if atStart then
    let ws0 := List.takeWhile isWsJS cs
    let rest1 := List.dropWhile isWsJS cs
    let digits := List.takeWhile (fun c => c.isDigit) rest1
    if digits.isEmpty then none
    else
      match List.dropWhile (fun c => c.isDigit) rest1 with
      | '.' :: d :: r3 =>
        if isWsJS d then
          let ws1 := d :: List.takeWhile isWsJS r3
          some ([], ws0.length + digits.length + 1 + ws1.length,
            lastIsLineTerm ws1)
        else none
      | _ => none
  else none

/-- Index of the last `'\n'` in a list, if any. -/
def lastNewline : List Char → Option Nat
  | [] => none
  | c :: t =>
    match lastNewline t with
    | some k => some (k + 1)
    | none => if c = '\n' then some 0 else none

/-- Pass 9: `/\n\s*\n/g` replaced by `"\n\n"`.  Greedy `\s*` backtracks to
the last newline inside the whitespace run. -/
def nlMatch (_ : Bool) (cs : List Char) :
    Option (List Char × Nat × Bool) :=
  match cs with
  | '\n' :: t =>
    let ws := List.takeWhile isWsJS t
    (match lastNewline ws with
     | some k => some (['\n', '\n'], k + 2, true)
     | none => none)
  | _ => none

/-- `markdownToText`: a falsy (empty) input yields `''`; otherwise the nine
replacement passes run in source order and the result is trimmed. -/
def markdownToText (markdown : List Char) : List Char :=
  if markdown.isEmpty then []
  else
    jsTrim (runPass nlMatch (runPass olMatch (runPass ulMatch (runPass bqMatch
      (runPass codeMatch (runPass fenceMatch (runPass linkMatch
        (runPass emphMatch (runPass headerMatch markdown)))))))))

/-! ## Helper lemmas -/

theorem not_ws_of_punct {c : Char} (h : isPunctC c = true) : isWsJS c = false := by
  simp only [isPunctC, Bool.or_eq_true, decide_eq_true_eq] at h
  rcases h with (h | h) | h <;> subst h <;> decide

theorem mem_jsTrim {c : Char} {l : List Char} (h : c ∈ jsTrim l) : c ∈ l := by
  unfold jsTrim at h
  rw [List.mem_reverse] at h
  have h2 := (List.dropWhile_sublist (l := (l.dropWhile isWsJS).reverse) (p := isWsJS)).mem h
  rw [List.mem_reverse] at h2
  exact (List.dropWhile_sublist (l := l) (p := isWsJS)).mem h2

/-! ## Claim C9: `validateJournalEntry` -/

/-- Claim C9: `validateJournalEntry` returns `isValid = true` exactly when the
title is present with non-empty trimmed text and at most 200 characters and
the content is present with non-empty trimmed text and at most 50000
characters; otherwise `isValid = false` and the errors list contains one
message per violated rule. -/
theorem isEmpty_false_of_trim_ne {s : List Char} (h : jsTrim s ≠ []) :
    s.isEmpty = false := by
  cases s with
  | nil => exact absurd rfl h
  | cons a l => rfl

theorem isEmpty_false_of_pos {s : List Char} (h : 0 < s.length) :
    s.isEmpty = false := by
  cases s with
  | nil => simp at h
  | cons a l => rfl

/-- Claim C9: `validateJournalEntry` returns `isValid = true` exactly when the
title is present with non-empty trimmed text and at most 200 characters and
the content is present with non-empty trimmed text and at most 50000
characters; otherwise `isValid = false` and the errors list contains one
message per violated rule. -/
theorem validateJournalEntry_claim (entry : EntryData) :
    ((validateJournalEntry entry).1 = true ↔
      ((∃ t, entry.title = some t ∧ jsTrim t ≠ [] ∧ t.length ≤ 200) ∧
       (∃ c, entry.content = some c ∧ jsTrim c ≠ [] ∧ c.length ≤ 50000))) ∧
    ((validateJournalEntry entry).2.length =
      (if ∃ t, entry.title = some t ∧ jsTrim t ≠ [] then 0 else 1) +
      (if ∃ t, entry.title = some t ∧ 200 < t.length then 1 else 0) +
      (if ∃ c, entry.content = some c ∧ jsTrim c ≠ [] then 0 else 1) +
      (if ∃ c, entry.content = some c ∧ 50000 < c.length then 1 else 0)) := by
  obtain ⟨title, content⟩ := entry
  cases title with
  | none =>
    cases content with
    | none => simp [validateJournalEntry, truthyStr, optLen, optTrimLen]
    | some c =>
      by_cases h3 : jsTrim c = []
      · by_cases h4 : 50000 < c.length
        · have hf := isEmpty_false_of_pos (s := c) (by omega)
          simp [validateJournalEntry, truthyStr, optLen, optTrimLen, h3, h4, hf]
        · simp [validateJournalEntry, truthyStr, optLen, optTrimLen, h3, h4]
      · have hf := isEmpty_false_of_trim_ne h3
        by_cases h4 : 50000 < c.length <;>
          simp [validateJournalEntry, truthyStr, optLen, optTrimLen, h3, h4, hf] <;>
          omega
  | some t =>
    cases content with
    | none =>
      by_cases h1 : jsTrim t = []
      · by_cases h2 : 200 < t.length
        · have hf := isEmpty_false_of_pos (s := t) (by omega)
          simp [validateJournalEntry, truthyStr, optLen, optTrimLen, h1, h2, hf]
        · simp [validateJournalEntry, truthyStr, optLen, optTrimLen, h1, h2]
      · have hf := isEmpty_false_of_trim_ne h1
        by_cases h2 : 200 < t.length <;>
          simp [validateJournalEntry, truthyStr, optLen, optTrimLen, h1, h2, hf] <;>
          omega
    | some c =>
      by_cases h1 : jsTrim t = [] <;> by_cases h2 : 200 < t.length <;>
        by_cases h3 : jsTrim c = [] <;> by_cases h4 : 50000 < c.length
      all_goals
        first
        | (have hf1 := isEmpty_false_of_trim_ne h1
           have hf2 := isEmpty_false_of_trim_ne h3
           simp [validateJournalEntry, truthyStr, optLen, optTrimLen,
             h1, h2, h3, h4, hf1, hf2] <;> omega)
        | (have hf1 := isEmpty_false_of_trim_ne h1
           simp [validateJournalEntry, truthyStr, optLen, optTrimLen,
             h1, h2, h3, h4, hf1,
             isEmpty_false_of_pos (s := c) (by omega : 0 < c.length)] <;> omega)
        | (have hf2 := isEmpty_false_of_trim_ne h3
           simp [validateJournalEntry, truthyStr, optLen, optTrimLen,
             h1, h2, h3, h4, hf2,
             isEmpty_false_of_pos (s := t) (by omega : 0 < t.length)] <;> omega)
        | (simp [validateJournalEntry, truthyStr, optLen, optTrimLen,
             h1, h2, h3, h4,
             isEmpty_false_of_pos (s := t) (by omega : 0 < t.length),
             isEmpty_false_of_pos (s := c) (by omega : 0 < c.length)] <;> omega)
        | (simp [validateJournalEntry, truthyStr, optLen, optTrimLen,
             h1, h2, h3, h4,
             isEmpty_false_of_pos (s := t) (by omega : 0 < t.length)] <;> omega)
        | (simp [validateJournalEntry, truthyStr, optLen, optTrimLen,
             h1, h2, h3, h4,
             isEmpty_false_of_pos (s := c) (by omega : 0 < c.length)] <;> omega)
        | (have hf1 := isEmpty_false_of_trim_ne h1
           simp [validateJournalEntry, truthyStr, optLen, optTrimLen,
             h1, h2, h3, h4, hf1] <;> omega)
        | (have hf2 := isEmpty_false_of_trim_ne h3
           simp [validateJournalEntry, truthyStr, optLen, optTrimLen,
             h1, h2, h3, h4, hf2] <;> omega)
        | (simp [validateJournalEntry, truthyStr, optLen, optTrimLen,
             h1, h2, h3, h4] <;> omega)

/-! ## Claim C10: `validateSearchQuery` -/

/-- Claim C10: for every input, `validateSearchQuery` returns a sanitized
string equal to the input with the characters `< >, ", ', &` removed and
surrounding whitespace trimmed (hence containing none of those characters);
`isValid` is true exactly when the sanitized string has length between 1 and
100; non-string input yields `isValid = false` with an empty sanitized
string. -/
theorem validateSearchQuery_claim (s : List Char) :
    ((validateSearchQuery (JSValue.str s)).2 =
        jsTrim (s.filter (fun c => !isDangerC c))) ∧
    (∀ c ∈ (validateSearchQuery (JSValue.str s)).2, isDangerC c = false) ∧
    ((validateSearchQuery (JSValue.str s)).1 = true ↔
      1 ≤ (validateSearchQuery (JSValue.str s)).2.length ∧
      (validateSearchQuery (JSValue.str s)).2.length ≤ 100) ∧
    validateSearchQuery JSValue.nonstr = (false, []) := by
  refine ⟨?_, ?_, ?_, rfl⟩
  · by_cases h : s.isEmpty
    · have hs : s = [] := List.isEmpty_iff.mp h
      subst hs
      simp [validateSearchQuery, jsTrim]
    · simp [validateSearchQuery, h]
  · intro c hc
    by_cases h : s.isEmpty
    · simp [validateSearchQuery, h] at hc
    · simp only [validateSearchQuery, h, Bool.false_eq_true, if_false] at hc
      have hmem := List.of_mem_filter (mem_jsTrim hc)
      simpa using hmem
  · by_cases h : s.isEmpty
    · have hs : s = [] := List.isEmpty_iff.mp h
      subst hs
      simp [validateSearchQuery]
    · simp [validateSearchQuery, h]
      omega

theorem validateSearchQuery_claim_witness :
    isDangerC 'a' = false :=
  (validateSearchQuery_claim (("<a>").toList)).2.1 'a' (by decide)

/-! ## Claim C1: the `reviewEntry` request timeout -/

/-- Claim C1 (code bug): the effective `api.ai.reviewEntry` operation carries
no 60000 ms per-request timeout, because the object literal's second
`reviewEntry` binding (api.js lines 180-185, written without a timeout)
shadows the first one (lines 150-155, written with `{ timeout: 60000 }`).
The theorem evaluates both the effective binding and the shadowed first
binding. -/
theorem reviewEntry_timeout_claim :
    ((jsObjectGet aiOperations (("reviewEntry").toList)).map ApiOp.timeout =
      some none) ∧
    ((aiOperations.find? (fun p => p.1 == ("reviewEntry").toList)).map
      (fun p => p.2.timeout) = some (some 60000)) := by
  constructor
  · rfl
  · rfl

/-! ## Claim C5: zero-result success vs failed retrieval -/

/-- Claim C5: a successful reflection response with zero (or absent) notes
leaves an empty cards list and no error state; a non-ok HTTP response leaves
an error state; hence "no relevant history" and "retrieval failed" are always
distinguishable and a failure never looks like an empty success. -/
theorem throttledFetch_claim (st : ChatPageState) (refl : Option (List Char))
    (notes : Option (List Note)) (status : Nat) :
    ((throttledFetch st (FetchOutcome.ok refl notes)).error = none) ∧
    ((throttledFetch st (FetchOutcome.ok refl none)).cards = []) ∧
    ((throttledFetch st (FetchOutcome.ok refl (some []))).cards = []) ∧
    ((throttledFetch st (FetchOutcome.httpError status)).error ≠ none) := by
  refine ⟨rfl, rfl, rfl, ?_⟩
  simp [throttledFetch]

/-! ## Claim C6: chat message order is append-order -/

/-- Claim C6 (counterexample to the claim as stated): when the API call
fails, `sendMessage` appends only the user message — no assistant message is
appended, so "every sendMessage call appends the user message and then the
assistant message" does not hold of failed calls. -/
theorem sendMessage_counterexample :
    sendMessage [] (("hi").toList) 0 1 ApiResult.error =
      [{ role := Role.user, content := ("hi").toList, timestamp := 0,
         context_facts_used := none, relevant_facts := [] }] := rfl

/-- Claim C6 (amended): every `sendMessage` call appends the user message at
the end of the existing sequence and, when the API call succeeds, then the
assistant message; previously appended messages are never mutated, removed,
or reordered (the prior sequence stays a prefix); on a failed call only the
user message is appended. -/
theorem sendMessage_claim (prev : List ChatMessage) (msg : List Char)
    (tu ta : Int) (res : ApiResult) :
    (∃ tail, sendMessage prev msg tu ta res = prev ++ tail) ∧
    (∀ r, sendMessage prev msg tu ta (ApiResult.ok r) =
      prev ++
      [{ role := Role.user, content := msg, timestamp := tu,
         context_facts_used := none, relevant_facts := [] },
       { role := Role.assistant, content := r.response, timestamp := ta,
         context_facts_used := some r.context_facts_used,
         relevant_facts := r.relevant_facts }]) ∧
    (sendMessage prev msg tu ta ApiResult.error =
      prev ++
      [{ role := Role.user, content := msg, timestamp := tu,
         context_facts_used := none, relevant_facts := [] }]) := by
  refine ⟨?_, ?_, ?_⟩
  · cases res with
    | ok r =>
        refine ⟨[{ role := Role.user, content := msg, timestamp := tu,
                   context_facts_used := none, relevant_facts := [] },
                 { role := Role.assistant, content := r.response,
                   timestamp := ta,
                   context_facts_used := some r.context_facts_used,
                   relevant_facts := r.relevant_facts }], ?_⟩
        simp [sendMessage]
    | error => exact ⟨_, rfl⟩
  · intro r
    simp [sendMessage]
  · rfl

/-! ## Claim C8: the RateLimiter -/

theorem successTimes_nil (rl : RateLimiter) : successTimes rl [] = [] := rfl

theorem successTimes_cons (rl : RateLimiter) (t : Int) (ts : List Int) :
    successTimes rl (t :: ts) =
      (if (canMakeCall t rl).1 = true then [t] else []) ++
        successTimes (canMakeCall t rl).2 ts := by
  rcases hc : canMakeCall t rl with ⟨ok, rl2⟩
  simp only [successTimes, runCalls, hc]
  rcases h2 : runCalls rl2 ts with ⟨res, rlF⟩
  cases ok <;> simp [h2]

theorem mem_of_mem_successTimes {s : Int} {rl : RateLimiter} {ts : List Int}
    (h : s ∈ successTimes rl ts) : s ∈ ts := by
  induction ts generalizing rl with
  | nil => simp [successTimes_nil] at h
  | cons t ts ih =>
    rw [successTimes_cons] at h
    rcases List.mem_append.mp h with h | h
    · by_cases hb : (canMakeCall t rl).1 = true
      · rw [if_pos hb] at h
        simp only [List.mem_singleton] at h
        exact h ▸ List.mem_cons_self t ts
      · rw [if_neg hb] at h
        simp at h
    · exact List.mem_cons_of_mem _ (ih h)

/-- Sliding-window invariant for the rate limiter: with non-decreasing clock
values, the accepted calls that land in any window of length `windowMs`,
together with the already-recorded calls in that window, never exceed
`maxCalls`. -/
theorem successTimes_window_invariant (maxCalls : Nat) (W T : Int) :
    ∀ (ts : List Int) (calls : List Int),
      List.Sorted (· ≤ ·) ts →
      (∀ c ∈ calls, ∀ u ∈ ts, c ≤ u) →
      calls.length ≤ maxCalls →
      ((successTimes ⟨maxCalls, W, calls⟩ ts).filter (inWindow T W)).length +
        (calls.filter (inWindow T W)).length ≤ maxCalls := by
  intro ts
  induction ts with
  | nil =>
    intro calls _ _ hlen
    simp only [successTimes_nil, List.filter_nil, List.length_nil, Nat.zero_add]
    exact le_trans (List.length_filter_le _ _) hlen
  | cons t ts ih =>
    intro calls hsorted hpast hlen
    have hsorted' : List.Sorted (· ≤ ·) ts := (List.sorted_cons.mp hsorted).2
    have hhead : ∀ u ∈ ts, t ≤ u := (List.sorted_cons.mp hsorted).1
    rw [successTimes_cons]
    by_cases hdrop : ∃ d ∈ calls, inWindow T W d = true ∧ ¬(t - d < W)
    · -- a recorded window call has already expired, so the clock has moved
      -- past the end of the window: nothing later can land in it
      obtain ⟨d, hd, hdwin, hdout⟩ := hdrop
      have hTW : T + W ≤ t := by
        simp only [inWindow, Bool.and_eq_true, decide_eq_true_eq] at hdwin
        omega
      have hnone : ∀ s : Int, s ∈ (if (canMakeCall t ⟨maxCalls, W, calls⟩).1 = true
          then [t] else []) ++
            successTimes (canMakeCall t ⟨maxCalls, W, calls⟩).2 ts →
          inWindow T W s = false := by
        intro s hs
        have hts : t ≤ s := by
          rcases List.mem_append.mp hs with h | h
          · by_cases hb : (canMakeCall t ⟨maxCalls, W, calls⟩).1 = true
            · rw [if_pos hb] at h
              simp only [List.mem_singleton] at h
              omega
            · rw [if_neg hb] at h
              simp at h
          · exact hhead s (mem_of_mem_successTimes h)
        simp only [inWindow, Bool.and_eq_true, decide_eq_true_eq]
        simp only [Bool.and_eq_false_iff, decide_eq_false_iff_not]
        right
        omega
      rw [List.filter_eq_nil_iff.mpr (fun s hs => by simp [hnone s hs])]
      simp only [List.length_nil, Nat.zero_add]
      exact le_trans (List.length_filter_le _ _) hlen
    · push_neg at hdrop
      -- every recorded window call survives this step's expiry filter
      have hkeep : ∀ c ∈ calls, inWindow T W c = true → (t - c < W) := by
        intro c hc hcw
        exact hdrop c hc hcw
      have hCeq : calls.filter (inWindow T W) =
          (calls.filter (fun c => decide (t - c < W))).filter (inWindow T W) := by
        rw [List.filter_filter]
        refine List.filter_congr ?_
        intro c hc
        by_cases hw : inWindow T W c = true
        · simp [hw, hkeep c hc hw]
        · simp only [Bool.not_eq_true] at hw
          simp [hw]
      set kept := calls.filter (fun c => decide (t - c < W)) with hkept
      have hkeptlen : kept.length ≤ calls.length := List.length_filter_le _ _
      have hkeptpast : ∀ c ∈ kept, ∀ u ∈ ts, c ≤ u := by
        intro c hc u hu
        exact hpast c (List.mem_of_mem_filter hc) u (List.mem_cons_of_mem _ hu)
      by_cases hacc : kept.length < maxCalls
      · -- the call is accepted and recorded
        have hcall : canMakeCall t ⟨maxCalls, W, calls⟩ =
            (true, ⟨maxCalls, W, kept ++ [t]⟩) := by
          simp [canMakeCall, hkept, hacc]
        rw [hcall]
        have hpast' : ∀ c ∈ kept ++ [t], ∀ u ∈ ts, c ≤ u := by
          intro c hc u hu
          rcases List.mem_append.mp hc with h | h
          · exact hkeptpast c h u hu
          · simp only [List.mem_singleton] at h
            exact h ▸ hhead u hu
        have hlen' : (kept ++ [t]).length ≤ maxCalls := by
          simp only [List.length_append, List.length_singleton]
          omega
        have hIH := ih (kept ++ [t]) hsorted' hpast' hlen'
        rw [List.filter_append, List.length_append, List.filter_singleton] at hIH
        dsimp only
        simp only [if_true, List.filter_append, List.length_append,
          List.filter_singleton]
        rw [hCeq]
        by_cases hw : inWindow T W t = true
        · simp only [hw, cond_true, List.length_singleton] at hIH ⊢
          omega
        · simp only [Bool.not_eq_true] at hw
          simp only [hw, cond_false, List.length_nil] at hIH ⊢
          omega
      · -- the call is rejected; the state keeps only the surviving records
        have hcall : canMakeCall t ⟨maxCalls, W, calls⟩ =
            (false, ⟨maxCalls, W, kept⟩) := by
          simp [canMakeCall, hkept, hacc]
        rw [hcall]
        have hIH := ih kept hsorted' hkeptpast (le_trans hkeptlen hlen)
        simp only [Bool.false_eq_true, if_false, List.nil_append]
        rw [hCeq]
        exact hIH

/-- Claim C8 (counterexample to the claim as stated): with `maxCalls = 2`,
`windowMs = 10` and the non-monotone clock sequence `0, 1, 11, 2`, all four
invocations return `true`, and three accepted calls (`0`, `1`, `2`) lie in
the single window `[0, 10)` — more than `maxCalls`.  (`Date.now()` values
are claimed "arbitrary"; a clock step backwards breaks the bound because
invocation at time `11` expires the records of `0` and `1`.) -/
theorem rateLimiter_counterexample :
    ((runCalls ⟨2, 10, []⟩ [0, 1, 11, 2]).1.map (fun p => p.2) =
      [true, true, true, true]) ∧
    ((successTimes ⟨2, 10, []⟩ [0, 1, 11, 2]).filter (inWindow 0 10)).length = 3 := by
  constructor
  · rfl
  · rfl

/-- Claim C8 (amended): provided the invocation clock values are
non-decreasing, at most `maxCalls` invocations of `canMakeCall` return `true`
within any `windowMs`-long time window; an invocation returning `false`
records no call (the resulting record list is a sublist of the previous one);
and `getTimeUntilReset` returns `0` when no calls are recorded. -/
theorem rateLimiter_claim (maxCalls : Nat) (W : Int) (ts : List Int) (T : Int)
    (hs : List.Sorted (· ≤ ·) ts) :
    (((successTimes ⟨maxCalls, W, []⟩ ts).filter (inWindow T W)).length ≤ maxCalls) ∧
    (∀ now rl, (canMakeCall now rl).1 = false →
      List.Sublist ((canMakeCall now rl).2).calls rl.calls) ∧
    (∀ now rl, rl.calls = [] → getTimeUntilReset now rl = 0) := by
  refine ⟨?_, ?_, ?_⟩
  · have h := successTimes_window_invariant maxCalls W T ts []
      hs (by simp) (Nat.zero_le _)
    simpa using h
  · intro now rl h
    by_cases hc : (rl.calls.filter (fun t => decide (now - t < rl.windowMs))).length < rl.maxCalls
    · simp [canMakeCall, hc] at h
    · simp only [canMakeCall, hc, if_neg, if_false]
      exact List.filter_sublist _
  · intro now rl h
    simp [getTimeUntilReset, h]

theorem rateLimiter_claim_witness :
    ((successTimes ⟨2, 10, []⟩ [0, 1, 5, 12]).filter (inWindow 0 10)).length ≤ 2 :=
  (rateLimiter_claim 2 10 [0, 1, 5, 12] 0 (by decide)).1

/-! ## Claim C2: `searchSimilar` result ordering and threshold -/

theorem searchLE_trans (a b c : Fact × Rat)
    (hab : searchLE a b = true) (hbc : searchLE b c = true) :
    searchLE a c = true := by
  simp only [searchLE, Bool.or_eq_true, Bool.and_eq_true, decide_eq_true_eq] at *
  rcases hab with h1 | ⟨h1, h1c⟩ <;> rcases hbc with h2 | ⟨h2, h2c⟩
  · exact Or.inl (lt_trans h2 h1)
  · exact Or.inl (h2 ▸ h1)
  · exact Or.inl (h1 ▸ h2)
  · exact Or.inr ⟨h1.trans h2, le_trans h2c h1c⟩

theorem searchLE_total (a b : Fact × Rat) :
    (searchLE a b || searchLE b a) = true := by
  simp only [searchLE, Bool.or_eq_true, Bool.and_eq_true, decide_eq_true_eq]
  rcases lt_trichotomy a.2 b.2 with h | h | h
  · exact Or.inr (Or.inl h)
  · rcases Int.le_total b.1.created_at a.1.created_at with hc | hc
    · exact Or.inl (Or.inr ⟨h, hc⟩)
    · exact Or.inr (Or.inr ⟨h.symm, hc⟩)
  · exact Or.inl (Or.inl h)

/-- Claim C2: for every scoring function, store, query, count `k` and
threshold `t`, the modelled `search` returns at most `k` results, each a
stored fact with its own similarity score at least `t`, ordered by
non-increasing similarity with equal-similarity results ordered by descending
`created_at`; and the client wrapper `api.ai.searchSimilar` uses the defaults
`limit = 10` and `similarity_threshold = 0.7`. -/
theorem searchSimilar_claim (sim : List Rat → List Rat → Rat)
    (store : List Fact) (q : List Rat) (k : Nat) (t : Rat) :
    ((search sim store q k t).length ≤ k) ∧
    (∀ p ∈ search sim store q k t,
       t ≤ p.2 ∧ p.2 = sim q p.1.vec ∧ p.1 ∈ store) ∧
    ((search sim store q k t).Pairwise (fun a b =>
       b.2 ≤ a.2 ∧ (a.2 = b.2 → b.1.created_at ≤ a.1.created_at))) ∧
    (∀ query, searchSimilar query =
      (("/ai/search-similar").toList, ⟨query, 10, 7/10⟩)) := by
  refine ⟨List.length_take_le _ _, ?_, ?_, fun query => rfl⟩
  · intro p hp
    have hp1 : p ∈ (store.map (fun f => (f, sim q f.vec))).filter
        (fun p => decide (t ≤ p.2)) := by
      have := List.mem_of_mem_take hp
      rwa [List.mem_mergeSort] at this
    have ht : t ≤ p.2 := by
      have := List.of_mem_filter hp1
      simpa using this
    have hmem := List.mem_of_mem_filter hp1
    rw [List.mem_map] at hmem
    obtain ⟨f, hf, hfe⟩ := hmem
    refine ⟨ht, ?_, ?_⟩
    · rw [← hfe]
    · rw [← hfe]
      exact hf
  · have hs := List.sorted_mergeSort searchLE_trans searchLE_total
      ((store.map (fun f => (f, sim q f.vec))).filter (fun p => decide (t ≤ p.2)))
    have hs2 := hs.sublist (List.take_sublist k _)
    refine hs2.imp ?_
    intro a b h
    simp only [searchLE, Bool.or_eq_true, Bool.and_eq_true, decide_eq_true_eq] at h
    rcases h with h | ⟨h, hc⟩
    · exact ⟨le_of_lt h, fun he => absurd (he ▸ h) (lt_irrefl _)⟩
    · exact ⟨le_of_eq h.symm, fun _ => hc⟩

theorem searchSimilar_claim_witness :
    (0 : Rat) ≤ 1 ∧ (1 : Rat) = 1 ∧ (⟨1, 0, []⟩ : Fact) ∈ [(⟨1, 0, []⟩ : Fact)] :=
  (searchSimilar_claim (fun _ _ => 1) [⟨1, 0, []⟩] [] 5 0).2.1 (⟨1, 0, []⟩, 1)
    (by simp [search])

/-! ## Fragmenter lemmas: `findMatch` inversion -/

theorem boundaryFree_nil : BoundaryFree [] := List.chain'_nil

theorem boundaryFree_cons {c : Char} {l : List Char} :
    BoundaryFree (c :: l) ↔
      (∀ b ∈ l.head?, ¬(isPunctC c = true ∧ isWsJS b = true)) ∧
        BoundaryFree l := by
  unfold BoundaryFree
  exact List.chain'_cons'

theorem head_not_ws_aux {cs : List Char}
    (h : List.dropWhile isPunctC cs = [] ∨
         ∃ d r2, List.dropWhile isPunctC cs = d :: r2 ∧ isWsJS d = false) :
    ∀ p0 ∈ cs.head?, isWsJS p0 = false := by
  intro p0 hp0
  cases cs with
  | nil => simp at hp0
  | cons a l =>
    simp only [List.head?_cons, Option.mem_def, Option.some.injEq] at hp0
    rw [← hp0]
    by_cases hpa : isPunctC a = true
    · exact not_ws_of_punct hpa
    · simp only [List.dropWhile_cons, hpa, Bool.false_eq_true, if_false] at h
      rcases h with h | ⟨d, r2, hd, hw⟩
      · exact absurd h (by simp)
      · simp only [List.cons.injEq] at hd
        exact hd.1 ▸ hw

theorem findMatch_some_inv :
    ∀ {cs pre sep rest : List Char},
      findMatch cs = some (pre, sep, rest) →
      cs = pre ++ sep ++ rest ∧
      (∃ ps w ws2, sep = ps ++ w :: ws2 ∧ ps ≠ [] ∧
        (∀ c ∈ ps, isPunctC c = true) ∧ isWsJS w = true ∧
        (∀ c ∈ ws2, isWsJS c = true)) ∧
      BoundaryFree pre := by
  intro cs
  induction cs with
  | nil => intro pre sep rest h; simp [findMatch] at h
  | cons c cs ih =>
    intro pre sep rest h
    by_cases hp : isPunctC c = true
    · rcases hdw : List.dropWhile isPunctC (c :: cs) with _ | ⟨d, r2⟩
      · -- the whole remaining text is punctuation: no whitespace follows
        simp only [findMatch, hp, if_true, hdw] at h
        rcases hm : findMatch cs with _ | ⟨⟨pre2, sep2, rest2⟩⟩
        · rw [hm] at h; simp at h
        · rw [hm] at h
          simp only [Option.map_some', Option.some.injEq, Prod.mk.injEq] at h
          obtain ⟨h1, h2, h3⟩ := h
          obtain ⟨IH1, IH2, IH3⟩ := ih hm
          subst h2; subst h3
          refine ⟨?_, IH2, ?_⟩
          · rw [← h1]; simp [IH1]
          · rw [← h1]
            rw [boundaryFree_cons]
            refine ⟨?_, IH3⟩
            intro b hb hcon
            have hcs : cs.head? = some b := by
              cases pre2 with
              | nil => simp at hb
              | cons x xs =>
                simp only [List.head?_cons, Option.mem_def, Option.some.injEq] at hb
                subst hb
                rw [IH1]; rfl
            have hdcs : List.dropWhile isPunctC cs = [] := by
              simpa only [List.dropWhile_cons, hp, if_true] using hdw
            have := head_not_ws_aux (Or.inl hdcs) b (by simp [hcs])
            exact absurd hcon.2 (by simp [this])
      · by_cases hw : isWsJS d = true
        · simp only [findMatch, hp, if_true, hdw, hw, Option.some.injEq,
            Prod.mk.injEq] at h
          obtain ⟨h1, h2, h3⟩ := h
          subst h1; subst h2; subst h3
          refine ⟨?_, ?_, boundaryFree_nil⟩
          · have hsplit := List.takeWhile_append_dropWhile (p := isPunctC)
              (l := c :: cs)
            have hsplit2 := List.takeWhile_append_dropWhile (p := isWsJS)
              (l := r2)
            conv_lhs => rw [← hsplit]
            rw [hdw]
            simp [hsplit2]
          · refine ⟨List.takeWhile isPunctC (c :: cs), d,
              List.takeWhile isWsJS r2, rfl, ?_, ?_, hw, ?_⟩
            · simp [List.takeWhile_cons, hp]
            · intro x hx
              exact List.mem_takeWhile_imp hx
            · intro x hx
              exact List.mem_takeWhile_imp hx
        · simp only [findMatch, hp, if_true, hdw, hw, Bool.false_eq_true,
            if_false] at h
          rcases hm : findMatch cs with _ | ⟨⟨pre2, sep2, rest2⟩⟩
          · rw [hm] at h; simp at h
          · rw [hm] at h
            simp only [Option.map_some', Option.some.injEq, Prod.mk.injEq] at h
            obtain ⟨h1, h2, h3⟩ := h
            obtain ⟨IH1, IH2, IH3⟩ := ih hm
            subst h2; subst h3
            refine ⟨?_, IH2, ?_⟩
            · rw [← h1]; simp [IH1]
            · rw [← h1]
              rw [boundaryFree_cons]
              refine ⟨?_, IH3⟩
              intro b hb hcon
              have hcs : cs.head? = some b := by
                cases pre2 with
                | nil => simp at hb
                | cons x xs =>
                  simp only [List.head?_cons, Option.mem_def,
                    Option.some.injEq] at hb
                  subst hb
                  rw [IH1]; rfl
              have hdcs : List.dropWhile isPunctC cs = d :: r2 := by
                simpa only [List.dropWhile_cons, hp, if_true] using hdw
              have := head_not_ws_aux
                (Or.inr ⟨d, r2, hdcs, by simp [hw]⟩) b (by simp [hcs])
              exact absurd hcon.2 (by simp [this])
    · simp only [findMatch, hp, Bool.false_eq_true, if_false] at h
      rcases hm : findMatch cs with _ | ⟨⟨pre2, sep2, rest2⟩⟩
      · rw [hm] at h; simp at h
      · rw [hm] at h
        simp only [Option.map_some', Option.some.injEq, Prod.mk.injEq] at h
        obtain ⟨h1, h2, h3⟩ := h
        obtain ⟨IH1, IH2, IH3⟩ := ih hm
        subst h2; subst h3
        refine ⟨?_, IH2, ?_⟩
        · rw [← h1]; simp [IH1]
        · rw [← h1]
          rw [boundaryFree_cons]
          refine ⟨?_, IH3⟩
          intro b hb hcon
          exact absurd hcon.1 (by simp [hp])

theorem findMatch_none_bf :
    ∀ {cs : List Char}, findMatch cs = none → BoundaryFree cs := by
  intro cs
  induction cs with
  | nil => intro _; exact boundaryFree_nil
  | cons c cs ih =>
    intro h
    by_cases hp : isPunctC c = true
    · rcases hdw : List.dropWhile isPunctC (c :: cs) with _ | ⟨d, r2⟩
      · simp only [findMatch, hp, if_true, hdw, Option.map_eq_none'] at h
        rw [boundaryFree_cons]
        refine ⟨?_, ih h⟩
        intro b hb hcon
        have hdcs : List.dropWhile isPunctC cs = [] := by
          simpa only [List.dropWhile_cons, hp, if_true] using hdw
        have := head_not_ws_aux (Or.inl hdcs) b hb
        exact absurd hcon.2 (by simp [this])
      · by_cases hw : isWsJS d = true
        · simp [findMatch, hp, hdw, hw] at h
        · simp only [findMatch, hp, if_true, hdw, hw, Bool.false_eq_true,
            if_false, Option.map_eq_none'] at h
          rw [boundaryFree_cons]
          refine ⟨?_, ih h⟩
          intro b hb hcon
          have hdcs : List.dropWhile isPunctC cs = d :: r2 := by
            simpa only [List.dropWhile_cons, hp, if_true] using hdw
          have := head_not_ws_aux (Or.inr ⟨d, r2, hdcs, by simp [hw]⟩) b hb
          exact absurd hcon.2 (by simp [this])
    · simp only [findMatch, hp, Bool.false_eq_true, if_false,
        Option.map_eq_none'] at h
      rw [boundaryFree_cons]
      refine ⟨?_, ih h⟩
      intro b hb hcon
      exact absurd hcon.1 (by simp [hp])

theorem findMatch_rest_lt {cs pre sep rest : List Char}
    (h : findMatch cs = some (pre, sep, rest)) : rest.length < cs.length := by
  obtain ⟨h1, ⟨ps, w, ws2, hsep, -, -, -, -⟩, -⟩ := findMatch_some_inv h
  rw [h1, hsep]
  simp only [List.length_append, List.length_cons]
  omega

/-! ## Fragmenter lemmas: `jsTrim` structure -/

theorem jsTrim_eq_nil_of_all_ws {l : List Char}
    (h : ∀ c ∈ l, isWsJS c = true) : jsTrim l = [] := by
  have hd : List.dropWhile isWsJS l = [] := by
    rw [← List.append_nil l, List.dropWhile_append_of_pos h]
    rfl
  simp [jsTrim, hd]

theorem jsTrim_append_ws {x zs : List Char}
    (h : ∀ c ∈ zs, isWsJS c = true) : jsTrim (x ++ zs) = jsTrim x := by
  have hz : List.dropWhile isWsJS zs = [] := by
    rw [← List.append_nil zs, List.dropWhile_append_of_pos h]
    rfl
  rw [jsTrim, jsTrim, List.dropWhile_append]
  by_cases he : (List.dropWhile isWsJS x).isEmpty = true
  · rw [if_pos he, hz]
    rw [List.isEmpty_iff] at he
    rw [he]
  · rw [if_neg he]
    rw [List.reverse_append]
    rw [List.dropWhile_append_of_pos (by
      intro a ha
      exact h a (List.mem_reverse.mp ha))]

theorem jsTrim_getLast_of_not_ws {l : List Char} {c : Char}
    (hlast : l.getLast? = some c) (hc : isWsJS c = false) :
    jsTrim l ≠ [] ∧ (jsTrim l).getLast? = some c := by
  have hsplit := List.takeWhile_append_dropWhile (p := isWsJS) (l := l)
  have hne : List.dropWhile isWsJS l ≠ [] := by
    intro h0
    have hl : l = List.takeWhile isWsJS l := by
      conv_lhs => rw [← hsplit]
      rw [h0, List.append_nil]
    have hcmem : c ∈ List.takeWhile isWsJS l :=
      hl ▸ List.mem_of_getLast?_eq_some hlast
    have := List.mem_takeWhile_imp hcmem
    rw [this] at hc
    exact absurd hc (by simp)
  have hdw : (List.dropWhile isWsJS l).getLast? = some c := by
    conv_lhs at hlast => rw [← hsplit]
    rw [List.getLast?_append] at hlast
    rcases hglo : (List.dropWhile isWsJS l).getLast? with _ | d
    · exact absurd (List.getLast?_eq_none_iff.mp hglo) hne
    · rw [hglo, Option.or_some] at hlast
      exact hlast
  have hrev : (List.dropWhile isWsJS l).reverse.head? = some c := by
    rw [List.head?_reverse]
    exact hdw
  rcases hrv : (List.dropWhile isWsJS l).reverse with _ | ⟨a, t⟩
  · rw [hrv] at hrev; simp at hrev
  · rw [hrv] at hrev
    simp only [List.head?_cons, Option.some.injEq] at hrev
    subst hrev
    rw [jsTrim, hrv, List.dropWhile_cons, hc]
    simp only [Bool.false_eq_true, if_false]
    constructor
    · simp
    · rw [List.getLast?_reverse]
      rfl

theorem jsTrim_last_not_ws {l : List Char} (h : jsTrim l ≠ []) :
    ∃ c, (jsTrim l).getLast? = some c ∧ isWsJS c = false := by
  rw [jsTrim] at h ⊢
  rcases hd : List.dropWhile isWsJS (List.dropWhile isWsJS l).reverse
    with _ | ⟨a, t⟩
  · rw [hd] at h; simp at h
  · refine ⟨a, ?_, ?_⟩
    · rw [List.getLast?_reverse]
      rfl
    · have h2 := List.head?_dropWhile_not isWsJS
        (List.dropWhile isWsJS l).reverse
      rw [hd] at h2
      simpa using h2

/-! ## Fragmenter lemmas: whitespace filtering and boundary freedom -/

theorem filter_nonWs_dropWhile (l : List Char) :
    (List.dropWhile isWsJS l).filter (fun c => !isWsJS c) =
      l.filter (fun c => !isWsJS c) := by
  induction l with
  | nil => rfl
  | cons c t ih =>
    rw [List.dropWhile_cons]
    by_cases hc : isWsJS c = true
    · rw [if_pos hc, ih, List.filter_cons]
      simp [hc]
    · rw [if_neg hc]

theorem filter_nonWs_jsTrim (l : List Char) :
    (jsTrim l).filter (fun c => !isWsJS c) = l.filter (fun c => !isWsJS c) := by
  rw [jsTrim, List.filter_reverse, filter_nonWs_dropWhile,
    List.filter_reverse, filter_nonWs_dropWhile, List.reverse_reverse]

theorem boundaryFree_append_left {xs ys : List Char}
    (h : BoundaryFree (xs ++ ys)) : BoundaryFree xs := by
  unfold BoundaryFree at h ⊢
  exact (List.chain'_append.mp h).1

theorem boundaryFree_append_right {xs ys : List Char}
    (h : BoundaryFree (xs ++ ys)) : BoundaryFree ys := by
  unfold BoundaryFree at h ⊢
  exact (List.chain'_append.mp h).2.1

theorem boundaryFree_of_all_not_ws {l : List Char}
    (h : ∀ c ∈ l, isWsJS c = false) : BoundaryFree l := by
  induction l with
  | nil => exact boundaryFree_nil
  | cons c t ih =>
    rw [boundaryFree_cons]
    refine ⟨?_, ih (fun x hx => h x (List.mem_cons_of_mem _ hx))⟩
    intro b hb hcon
    have hbmem : b ∈ t := by
      cases t with
      | nil => simp at hb
      | cons x xs =>
        simp only [List.head?_cons, Option.mem_def, Option.some.injEq] at hb
        rw [← hb]
        exact List.mem_cons_self x xs
    have := h b (List.mem_cons_of_mem _ hbmem)
    rw [this] at hcon
    exact absurd hcon.2 (by simp)

theorem boundaryFree_glue {xs ys : List Char} (hx : BoundaryFree xs)
    (hy : ∀ c ∈ ys, isWsJS c = false) : BoundaryFree (xs ++ ys) := by
  unfold BoundaryFree at hx ⊢
  rw [List.chain'_append]
  refine ⟨hx, boundaryFree_of_all_not_ws hy, ?_⟩
  intro x _ y hy2 hcon
  have hymem : y ∈ ys := by
    cases ys with
    | nil => simp at hy2
    | cons a t =>
      simp only [List.head?_cons, Option.mem_def, Option.some.injEq] at hy2
      rw [← hy2]
      exact List.mem_cons_self a t
  have := hy y hymem
  rw [this] at hcon
  exact absurd hcon.2 (by simp)

theorem boundaryFree_jsTrim {l : List Char} (h : BoundaryFree l) :
    BoundaryFree (jsTrim l) := by
  have h1 : BoundaryFree (List.dropWhile isWsJS l) := by
    have hx : BoundaryFree
        (List.takeWhile isWsJS l ++ List.dropWhile isWsJS l) := by
      rw [List.takeWhile_append_dropWhile]
      exact h
    exact boundaryFree_append_right hx
  have h2 : List.dropWhile isWsJS l =
      jsTrim l ++ (List.takeWhile isWsJS
        (List.dropWhile isWsJS l).reverse).reverse := by
    rw [jsTrim]
    rw [← List.reverse_append, List.takeWhile_append_dropWhile,
      List.reverse_reverse]
  rw [h2] at h1
  exact boundaryFree_append_left h1

/-! ## Fragmenter lemmas: the combine-trim-filter pipeline -/

theorem fragPost_nil : fragPost [] = [] := rfl

theorem fragPost_single (p : List Char) :
    fragPost [p] = if jsTrim p = [] then [] else [jsTrim p] := by
  by_cases h : jsTrim p = [] <;>
    simp [fragPost, combineParts, h, List.length_pos]

theorem fragPost_cons₂ (p s : List Char) (L : List (List Char))
    (hs : jsTrim (p ++ s) ≠ []) :
    fragPost (p :: s :: L) = jsTrim (p ++ s) :: fragPost L := by
  simp [fragPost, combineParts, List.length_pos, hs]

theorem splitCaptureGo_flatten :
    ∀ (fuel : Nat) (cs : List Char), (splitCaptureGo fuel cs).flatten = cs := by
  intro fuel
  induction fuel with
  | zero => intro cs; simp [splitCaptureGo]
  | succ n ih =>
    intro cs
    rw [splitCaptureGo]
    rcases h : findMatch cs with _ | ⟨⟨pre, sep, rest⟩⟩
    · simp
    · simp only [List.flatten_cons, ih rest]
      rw [(findMatch_some_inv h).1]
      simp

theorem combineParts_flatten_filter (parts : List (List Char)) :
    ((combineParts parts).flatten).filter (fun c => !isWsJS c) =
      (parts.flatten).filter (fun c => !isWsJS c) := by
  induction parts using combineParts.induct with
  | case1 => rfl
  | case2 p h =>
    have hp : p.filter (fun c => !isWsJS c) = [] := by
      rw [← filter_nonWs_jsTrim, h]
      rfl
    simp [combineParts, h, hp]
  | case3 p h => simp [combineParts, h]
  | case4 p s rest ih =>
    simp only [combineParts, List.flatten_cons, List.filter_append, ih,
      List.append_assoc]

theorem mapTrim_flatten_filter (L : List (List Char)) :
    (((L.map jsTrim).flatten).filter (fun c => !isWsJS c)) =
      ((L.flatten).filter (fun c => !isWsJS c)) := by
  induction L with
  | nil => rfl
  | cons x t ih =>
    simp only [List.map_cons, List.flatten_cons, List.filter_append, ih,
      filter_nonWs_jsTrim]

theorem filterLen_flatten (L : List (List Char)) :
    ((L.filter (fun s => decide (s.length > 0))).flatten) = L.flatten := by
  induction L with
  | nil => rfl
  | cons x t ih =>
    by_cases h : x.length > 0
    · simp [List.filter_cons, h, ih]
    · have hx : x = [] := by
        cases x with
        | nil => rfl
        | cons a b => simp at h
      simp [List.filter_cons, hx, ih]

/-! ## Fragmenter lemmas: main induction -/

theorem findMatch_no_punct :
    ∀ {cs : List Char}, (∀ c ∈ cs, isPunctC c = false) → findMatch cs = none := by
  intro cs
  induction cs with
  | nil => intro _; rfl
  | cons c cs ih =>
    intro h
    have hp : isPunctC c = false := h c (List.mem_cons_self c cs)
    simp only [findMatch, hp, Bool.false_eq_true, if_false,
      ih (fun x hx => h x (List.mem_cons_of_mem _ hx)), Option.map_none']

theorem fragPost_mem_nonempty {f : List Char} {L : List (List Char)}
    (hf : f ∈ fragPost L) : f ≠ [] ∧ ∃ c ∈ f, isWsJS c = false := by
  rw [fragPost, List.mem_filter] at hf
  obtain ⟨hmem, hlen⟩ := hf
  have hne : f ≠ [] := by
    intro h0
    rw [h0] at hlen
    simp at hlen
  rw [List.mem_map] at hmem
  obtain ⟨x, -, hx⟩ := hmem
  subst hx
  obtain ⟨c, hcl, hcw⟩ := jsTrim_last_not_ws hne
  exact ⟨hne, c, List.mem_of_getLast?_eq_some hcl, hcw⟩

theorem fragPost_splitCapture_spec :
    ∀ (fuel : Nat) (cs : List Char), cs.length ≤ fuel →
      (∀ f ∈ fragPost (splitCaptureGo fuel cs), BoundaryFree f) ∧
      (∀ f ∈ (fragPost (splitCaptureGo fuel cs)).dropLast,
        ∃ c, f.getLast? = some c ∧ isPunctC c = true) := by
  intro fuel
  induction fuel with
  | zero =>
    intro cs hlen
    have h0 : cs = [] := List.length_eq_zero.mp (Nat.le_zero.mp hlen)
    subst h0
    constructor <;> intro f hf <;>
      simp [splitCaptureGo, fragPost_single, jsTrim] at hf
  | succ n ih =>
    intro cs hlen
    rw [splitCaptureGo]
    rcases h : findMatch cs with _ | ⟨⟨pre, sep, rest⟩⟩
    · constructor
      · intro f hf
        rw [fragPost_single] at hf
        by_cases ht : jsTrim cs = []
        · rw [if_pos ht] at hf; simp at hf
        · rw [if_neg ht] at hf
          simp only [List.mem_singleton] at hf
          subst hf
          exact boundaryFree_jsTrim (findMatch_none_bf h)
      · intro f hf
        rw [fragPost_single] at hf
        by_cases ht : jsTrim cs = []
        · rw [if_pos ht] at hf; simp at hf
        · rw [if_neg ht] at hf; simp at hf
    · obtain ⟨hdec, ⟨ps, w, ws2, hsep, hpsne, hpsall, hw, hws2⟩, hbfpre⟩ :=
        findMatch_some_inv h
      have hlast_ps : ∃ cp, ps.getLast? = some cp ∧ isPunctC cp = true := by
        rcases hq : ps.getLast? with _ | cp
        · exact absurd (List.getLast?_eq_none_iff.mp hq) hpsne
        · exact ⟨cp, rfl, hpsall cp (List.mem_of_getLast?_eq_some hq)⟩
      obtain ⟨cp, hcp, hcpp⟩ := hlast_ps
      have htrim_eq : jsTrim (pre ++ sep) = jsTrim (pre ++ ps) := by
        rw [hsep, ← List.append_assoc]
        refine jsTrim_append_ws ?_
        intro c hc
        rcases List.mem_cons.mp hc with hc | hc
        · exact hc ▸ hw
        · exact hws2 c hc
      have hlast_preps : (pre ++ ps).getLast? = some cp := by
        rw [List.getLast?_append, hcp]
        rfl
      have hnw : isWsJS cp = false := not_ws_of_punct hcpp
      obtain ⟨hfne0, hflast0⟩ := jsTrim_getLast_of_not_ws hlast_preps hnw
      have hfrag_ne : jsTrim (pre ++ sep) ≠ [] := by
        rw [htrim_eq]; exact hfne0
      have hfrag_last : (jsTrim (pre ++ sep)).getLast? = some cp := by
        rw [htrim_eq]; exact hflast0
      have hfrag_bf : BoundaryFree (jsTrim (pre ++ sep)) := by
        rw [htrim_eq]
        refine boundaryFree_jsTrim (boundaryFree_glue hbfpre ?_)
        intro c hc
        exact not_ws_of_punct (hpsall c hc)
      rw [fragPost_cons₂ _ _ _ hfrag_ne]
      have hrest_len : rest.length ≤ n := by
        have := findMatch_rest_lt h
        omega
      obtain ⟨IH1, IH2⟩ := ih rest hrest_len
      constructor
      · intro f hf
        rcases List.mem_cons.mp hf with hf | hf
        · exact hf ▸ hfrag_bf
        · exact IH1 f hf
      · intro f hf
        rcases hfp : fragPost (splitCaptureGo n rest) with _ | ⟨x, xs⟩
        · rw [hfp] at hf
          simp at hf
        · rw [hfp, List.dropLast_cons₂] at hf
          rcases List.mem_cons.mp hf with hf | hf
          · exact hf ▸ ⟨cp, hfrag_last, hcpp⟩
          · refine IH2 f ?_
            rw [hfp]
            exact hf

/-! ## Claim C3: the sentence fragmenter -/

/-- Claim C3 (counterexample to the claim as stated): the fragmenter DOES
split inside a likely abbreviation — "Dr. Smith came home." is split after
"Dr." because the split regex `([.!?]+\s+)` is a naive
punctuation-followed-by-whitespace rule with no abbreviation handling. -/
theorem processedSuggestion_counterexample :
    processedSuggestion (("Dr. Smith came home.").toList) =
      [("Dr.").toList, ("Smith came home.").toList] := by
  rfl

/-- Claim C3 (amended): the fragmenter splits exactly at maximal runs of
`.`/`!`/`?` followed by whitespace — including after abbreviations such as
"Dr." (it is a naive regex, not abbreviation-aware), though never inside
decimal numbers, where the punctuation is not followed by whitespace.  Every
emitted fragment is nonempty and not whitespace-only; no fragment retains an
internal split boundary (no punctuation character immediately followed by
whitespace); every fragment except possibly the last ends in a punctuation
character; whitespace-only or empty input yields the empty sequence. -/
theorem processedSuggestion_claim (prompt : List Char) :
    (∀ f ∈ processedSuggestion prompt, f ≠ [] ∧ ∃ c ∈ f, isWsJS c = false) ∧
    (∀ f ∈ processedSuggestion prompt, BoundaryFree f) ∧
    (∀ f ∈ (processedSuggestion prompt).dropLast,
      ∃ c, f.getLast? = some c ∧ isPunctC c = true) ∧
    ((∀ c ∈ prompt, isWsJS c = true) → processedSuggestion prompt = []) := by
  have hps : processedSuggestion prompt =
      fragPost (splitCaptureGo prompt.length prompt) ∨
      processedSuggestion prompt = [] := by
    by_cases he : prompt.isEmpty = true
    · right
      rw [processedSuggestion, if_pos he]
    · left
      rw [processedSuggestion, if_neg he]
      rfl
  rcases hps with hps | hps
  · obtain ⟨hbf, hlastp⟩ :=
      fragPost_splitCapture_spec prompt.length prompt (le_refl _)
    refine ⟨?_, ?_, ?_, ?_⟩
    · intro f hf
      rw [hps] at hf
      exact fragPost_mem_nonempty hf
    · intro f hf
      rw [hps] at hf
      exact hbf f hf
    · intro f hf
      rw [hps] at hf
      exact hlastp f hf
    · intro hall
      rw [hps]
      cases hp : prompt with
      | nil => rfl
      | cons a l =>
        rw [hp] at hall
        have hnp : findMatch (a :: l) = none :=
          findMatch_no_punct (fun c hc => by
            have := hall c hc
            by_contra hcon
            rw [Bool.not_eq_false] at hcon
            rw [not_ws_of_punct hcon] at this
            exact absurd this (by simp))
        simp only [List.length_cons, splitCaptureGo, hnp]
        rw [fragPost_single, if_pos (jsTrim_eq_nil_of_all_ws hall)]
  · rw [hps]
    refine ⟨?_, ?_, ?_, fun _ => rfl⟩ <;> intro f hf <;> simp at hf

theorem processedSuggestion_claim_witness :
    processedSuggestion (("  ").toList) = [] :=
  (processedSuggestion_claim (("  ").toList)).2.2.2 (by decide)

/-! ## Claim C4: fragmentation drops only whitespace -/

/-- Claim C4: for every non-empty prompt, re-joining the fragments produced
by the sentence fragmenter preserves exactly the non-whitespace characters of
the input, in order — fragmentation silently drops only whitespace, never
content. -/
theorem fragmenter_rejoin_claim (prompt : List Char) (h : prompt ≠ []) :
    ((processedSuggestion prompt).flatten).filter (fun c => !isWsJS c) =
      prompt.filter (fun c => !isWsJS c) := by
  have hne : prompt.isEmpty = false := by
    cases prompt with
    | nil => exact absurd rfl h
    | cons a l => rfl
  rw [processedSuggestion, hne]
  simp only [Bool.false_eq_true, if_false]
  rw [filterLen_flatten, mapTrim_flatten_filter, combineParts_flatten_filter,
    splitCapture, splitCaptureGo_flatten]

theorem fragmenter_rejoin_claim_witness :
    ((processedSuggestion (("Hi there. Bye.").toList)).flatten).filter
        (fun c => !isWsJS c) =
      (("Hi there. Bye.").toList).filter (fun c => !isWsJS c) :=
  fragmenter_rejoin_claim (("Hi there. Bye.").toList) (by decide)

/-! ## Claim C7: `markdownToText` -/

theorem dropWhile_ws_decomp (l : List Char) :
    List.dropWhile isWsJS l =
      jsTrim l ++
        (List.takeWhile isWsJS (List.dropWhile isWsJS l).reverse).reverse := by
  rw [jsTrim, ← List.reverse_append, List.takeWhile_append_dropWhile,
    List.reverse_reverse]

theorem jsTrim_head_not_ws {l : List Char} (hne : jsTrim l ≠ []) :
    ∀ c ∈ (jsTrim l).head?, isWsJS c = false := by
  intro c hc
  have h2 := List.head?_dropWhile_not isWsJS l
  rw [dropWhile_ws_decomp l] at h2
  rcases hj : jsTrim l with _ | ⟨a, s⟩
  · exact absurd hj hne
  · rw [hj] at hc
    simp only [List.head?_cons, Option.mem_def, Option.some.injEq] at hc
    rw [hj] at h2
    simp only [List.cons_append, List.head?_cons] at h2
    rw [← hc]
    exact h2

theorem jsTrim_of_ends_not_ws {l : List Char}
    (h1 : ∀ c ∈ l.head?, isWsJS c = false)
    (h2 : ∀ c ∈ l.getLast?, isWsJS c = false) : jsTrim l = l := by
  cases l with
  | nil => rfl
  | cons a t =>
    have ha : isWsJS a = false := h1 a rfl
    have hdw : List.dropWhile isWsJS (a :: t) = a :: t := by
      rw [List.dropWhile_cons, ha]
      simp
    rw [jsTrim, hdw]
    rcases hr : (a :: t).reverse with _ | ⟨b, s⟩
    · exact absurd hr (by simp)
    · have hb : isWsJS b = false := by
        refine h2 b ?_
        rw [← List.head?_reverse, hr]
        rfl
      rw [List.dropWhile_cons, hb]
      simp only [Bool.false_eq_true, if_false]
      rw [← hr, List.reverse_reverse]

theorem jsTrim_idem (l : List Char) : jsTrim (jsTrim l) = jsTrim l := by
  by_cases h : jsTrim l = []
  · rw [h]
    rfl
  · refine jsTrim_of_ends_not_ws (jsTrim_head_not_ws h) ?_
    intro c hc
    obtain ⟨d, hd, hw⟩ := jsTrim_last_not_ws h
    rw [hd] at hc
    simp only [Option.mem_def, Option.some.injEq] at hc
    rw [← hc]
    exact hw

/-- Claim C7 (counterexample to the claim as stated): stripping is a fixed
sequence of single regex passes, so markdown nested inside other markdown can
survive — the header pass runs before the emphasis pass, and on
`"**# Hello**"` the emphasis pass re-exposes a header marker that is never
removed: the output `"# Hello"` still begins with a header marker. -/
theorem markdownToText_counterexample :
    markdownToText (("**# Hello**").toList) = ("# Hello").toList := by
  rfl

set_option maxRecDepth 100000 in
set_option maxHeartbeats 1000000 in
/-- Claim C7 (amended): `markdownToText` applies one global pass of each
strip rule in the fixed source order (headers, emphasis, links, code fences,
inline code, blockquotes, unordered and ordered list markers, blank-line
collapsing) and finally trims.  On well-formed, non-nested markdown no
syntax survives — demonstrated on a representative document exercising every
rule — and the output is always whitespace-trimmed; markers that are
unpaired or re-exposed by a later pass (such as a header inside emphasis)
can remain in the output. -/
theorem markdownToText_claim (md : List Char) :
    (jsTrim (markdownToText md) = markdownToText md) ∧
    (markdownToText [] = []) ∧
    (markdownToText (("# Title\nSome **bold** and *it* and [link](http://x) here.\n```\ncode block\n```\n`inline` rest\n> quoted text\n- item one\n2. item two\n\n\n\nEnd.").toList) =
      ("Title\nSome bold and it and link here.\n\ninline rest\nquoted text\nitem one\nitem two\n\nEnd.").toList) := by
  refine ⟨?_, rfl, by rfl⟩
  rw [markdownToText]
  by_cases h : md.isEmpty = true
  · rw [if_pos h]
    rfl
  · rw [if_neg h]
    exact jsTrim_idem _

end ReMemo
